import Mathlib

/-!
Verification of the core parse–index–search pipeline of the gag-database
program (`src/database/gag_database.py`).  The Python code is shallowly
embedded: each method becomes a Lean function over `List Char` / `String`,
with the regex calls modelled by explicit scanning functions that follow
Python `re.search` semantics (leftmost match, greedy `\s*`, lazy `(.+?)`,
case-insensitive label comparison).  The embedding covers the ASCII
fragment of Python's `str.lower`, `\s`, `\d` and `\w`, which is the
alphabet of the repository's data files.
-/

namespace FG

/-- ASCII fragment of Python's `\s` / `str.strip` whitespace. -/
def pyIsSpace (c : Char) : Bool :=
  c = ' ' || c = '\t' || c = '\n' || c = '\x0d' || c = '\x0b' || c = '\x0c'

/-- Python `str.lower()` (ASCII fragment), on a char list. -/
def lowerL (cs : List Char) : List Char := cs.map Char.toLower

/-- Python `str.lower()` (ASCII fragment). -/
def strLower (s : String) : String := ⟨lowerL s.data⟩

/-- Python `str.strip()` on a char list. -/
def pyStripL (cs : List Char) : List Char :=
  ((cs.dropWhile pyIsSpace).reverse.dropWhile pyIsSpace).reverse

/-- Python `str.strip()`. -/
def pyStrip (s : String) : String := ⟨pyStripL s.data⟩

/-- Python's substring test `p in s` on char lists. -/
def isSubstring : List Char → List Char → Bool
  | p, [] => p.isEmpty
  | p, c :: t => p.isPrefixOf (c :: t) || isSubstring p t

/-- Python `int()` on a nonempty ASCII digit capture. -/
def digitsToNat (ds : List Char) : Nat :=
  ds.foldl (fun n c => 10 * n + (c.toNat - 48)) 0

/--
Model of matching `\s*(.+?)(?:\n|$)` against the suffix `s` that follows a
label, returning the captured group.  Greedy `\s*` takes the maximal
whitespace run; the lazy group then captures up to (excluding) the next
newline.  If `s` is all whitespace, backtracking shrinks `\s*` until the
group can take one (whitespace, non-newline) character; the match fails
exactly when every character of `s` is a newline (or `s` is empty).
-/
def matchDotValue (s : List Char) : Option (List Char) :=
  let r := s.dropWhile pyIsSpace
  if r.isEmpty then
    match (s.filter (fun c => c ≠ '\n')).getLast? with
    | some c => some [c]
    | none => none
  else
    some (r.takeWhile (fun c => c ≠ '\n'))

/--
Model of matching `\s*(\d+)` against the suffix that follows a label:
succeeds exactly when the first non-whitespace character is a digit, and
captures the maximal digit run from there.
-/
def matchNumValue (s : List Char) : Option Nat :=
  let ds := (s.dropWhile pyIsSpace).takeWhile Char.isDigit
  if ds.isEmpty then none else some (digitsToNat ds)

/--
Model of `re.search(label + r':\s*(.+?)(?:\n|$)', content, re.IGNORECASE)`
followed by `.group(1)`: scan left to right; at each position where the
(lower-case) label is a case-insensitive prefix of the rest, try the value
match, and on failure keep scanning.  `label` includes the colon.
-/
def reSearchStr (label : List Char) : List Char → Option (List Char)
  | [] => none
  | c :: cs =>
    if label.isPrefixOf (lowerL (c :: cs)) then
      match matchDotValue ((c :: cs).drop label.length) with
      | some v => some v
      | none => reSearchStr label cs
    else reSearchStr label cs

/-- Model of `re.search(label + r':\s*(\d+)', content, re.IGNORECASE)`. -/
def reSearchNum (label : List Char) : List Char → Option Nat
  | [] => none
  | c :: cs =>
    if label.isPrefixOf (lowerL (c :: cs)) then
      match matchNumValue ((c :: cs).drop label.length) with
      | some v => some v
      | none => reSearchNum label cs
    else reSearchNum label cs

/-- The `Gag` dataclass. -/
structure Gag where
  title : String
  season : Option Nat := none
  episode : Option String := none
  episode_order : Option Nat := none
  cutaway_owner : Option String := none
  description : Option String := none
  filename : String := ""
deriving DecidableEq

/--
The method `GagDatabase.parse_gag_file`: extract the six labelled fields from the raw
text.  `stem` is the fallback identifier (Python `filepath.stem`), `fname`
the originating file name.  The Python `try/except` guards file I/O only;
the field extraction itself is total.
-/
def parse_gag_file (content stem fname : String) : Gag :=
  { title := match reSearchStr "title:".data content.data with
      | some v => ⟨pyStripL v⟩
      | none => stem
    season := reSearchNum "season:".data content.data
    episode := (reSearchStr "episode:".data content.data).map (fun v => (⟨pyStripL v⟩ : String))
    episode_order := reSearchNum "episode order:".data content.data
    cutaway_owner :=
      (reSearchStr "cutaway owner:".data content.data).map (fun v => (⟨pyStripL v⟩ : String))
    description :=
      (reSearchStr "description:".data content.data).map (fun v => (⟨pyStripL v⟩ : String))
    filename := fname }

/-- The fixed stop-word set of `_extract_keywords`. -/
def stop_words : List String :=
  ["the", "and", "for", "with", "from", "his", "her", "that",
   "this", "when", "where", "what", "how", "who", "which", "why",
   "gets", "tells", "know", "find", "make", "does", "says", "during"]

/-- Python `\w` (ASCII fragment): letters, digits, underscore. -/
def isWordChar (c : Char) : Bool := c.isAlphanum || c = '_'

/-- An ASCII lowercase letter, the `[a-z]` of the tokenizing regex. -/
def isLowerAlpha (c : Char) : Bool := 'a' ≤ c && c ≤ 'z'

/--
Model of `re.findall(r'\b[a-z]+\b', s)`: emit each maximal run of
lowercase letters both of whose boundaries are word boundaries.  `valid`
records whether the position right before `run` (the letters accumulated
so far, reversed) is a word boundary; runs adjacent to a digit or an
underscore are dropped, since those are word characters and `\b` fails.
-/
def azAux : List Char → Bool → List Char → List String
  | [], valid, run => if valid && !run.isEmpty then [⟨run.reverse⟩] else []
  | c :: cs, valid, run =>
    if isLowerAlpha c then
      azAux cs valid (c :: run)
    else
      (if valid && !run.isEmpty && !isWordChar c then [(⟨run.reverse⟩ : String)] else [])
        ++ azAux cs (!isWordChar c) []

/-- Python `re.findall(r'\b[a-z]+\b', s)` on an already-lowered string. -/
def findallAz (s : String) : List String := azAux s.data true []

/-- The method `GagDatabase._extract_keywords` (with the default `min_length = 3`). -/
def extract_keywords (text : String) : List String :=
  (findallAz (strLower text)).filter (fun w => decide (3 ≤ w.length ∧ w ∉ stop_words))

/-- The fixed main-character set. -/
def main_characters : List String :=
  ["peter griffin", "lois griffin", "stewie griffin",
   "chris griffin", "meg griffin", "brian griffin",
   "quagmire", "joe swanson", "cleveland brown"]

/-- Python `any(main in owner_lower for main in self.main_characters)`. -/
def isMainOwner (owner : String) : Bool :=
  main_characters.any (fun m => isSubstring m.data (strLower owner).data)

/-- The tokens `_index_gag` inserts for one record: the lower-cased owner
string (when the owner is set) and the description keywords. -/
def gagTokens (g : Gag) : List String :=
  (match g.cutaway_owner with
   | some o => [strLower o]
   | none => []) ++
  (match g.description with
   | some d => extract_keywords d
   | none => [])

/-- One step of index building: `_index_gag` for a single record, over an
index represented as a total map from token to title set. -/
def indexInsert (idx : String → Finset String) (g : Gag) : String → Finset String :=
  fun t => if t ∈ gagTokens g then insert g.title (idx t) else idx t

/-- The inverted index built by `load_all_gags` over a store. -/
def buildIndex (gs : List Gag) : String → Finset String :=
  gs.foldl indexInsert (fun _ => ∅)

/-- The `search_in` argument of `GagDatabase.search`. -/
inductive Scope where
  | character
  | description
  | all
deriving DecidableEq

/-- Python `search_in in ['character', 'all']`. -/
def scopeChar : Scope → Bool
  | .character => true
  | .all => true
  | .description => false

/-- Python `search_in in ['description', 'all']`. -/
def scopeDesc : Scope → Bool
  | .description => true
  | .all => true
  | .character => false

/-- The per-record match test of the `GagDatabase.search` loop;
`ql` is the already-lowered query. -/
def gagMatches (idx : String → Finset String) (ql : String) (scope : Scope) (g : Gag) : Bool :=
  (scopeChar scope &&
    (match g.cutaway_owner with
     | some o => isSubstring ql.data (strLower o).data
     | none => false)) ||
  (scopeDesc scope &&
    ((match g.description with
      | some d => isSubstring ql.data (strLower d).data
      | none => false) ||
     decide (g.title ∈ idx ql)))

/-- The method `GagDatabase.search`: collect the titles of matching records into a
set (`results`, modelled as a deduplicated list), sort them ascending
(`sorted(results)`, modelled by insertion sort — identical outcome on a
duplicate-free list under a total antisymmetric order), and resolve each
back to its record (`self.gags[title]`, modelled by `find?` over a store
with unique titles). -/
def search (gs : List Gag) (idx : String → Finset String) (query : String) (scope : Scope) :
    List Gag :=
  let ql := strLower query
  let results : List String := ((gs.filter (gagMatches idx ql scope)).map Gag.title).dedup
  (List.insertionSort (· ≤ ·) results).filterMap (fun t => gs.find? (fun g => g.title == t))

/-- The fields of the `stats` dictionary of `GagDatabase.validate_data`
that the loop fills in. -/
structure ValidationStats where
  total_gags : Nat
  missing_season : List String
  missing_episode : List String
  missing_owner : List String
  missing_description : List String
  missing_multiple_fields : List (String × List String)
  season_range : Option (Nat × Nat)
  characters : List String
  absurdist_gags : List (String × String × String)
deriving DecidableEq

/-- The `fields_missing` list accumulated per record by `validate_data`,
in the loop's order: season, episode, owner, description. -/
def missingFields (g : Gag) : List String :=
  (if g.season.isNone then ["season"] else []) ++
  (if g.episode.isNone then ["episode"] else []) ++
  (if g.cutaway_owner.isNone then ["owner"] else []) ++
  (if g.description.isNone then ["description"] else [])

/-- The method `GagDatabase.validate_data`: each field of the stats record collects,
in store order, exactly what the Python loop appends to it. -/
def validate_data (gs : List Gag) : ValidationStats :=
  { total_gags := gs.length
    missing_season := (gs.filter (fun g => g.season.isNone)).map Gag.title
    missing_episode := (gs.filter (fun g => g.episode.isNone)).map Gag.title
    missing_owner := (gs.filter (fun g => g.cutaway_owner.isNone)).map Gag.title
    missing_description := (gs.filter (fun g => g.description.isNone)).map Gag.title
    missing_multiple_fields :=
      (gs.filter (fun g => 1 < (missingFields g).length)).map (fun g => (g.title, missingFields g))
    season_range :=
      match gs.filterMap Gag.season with
      | [] => none
      | s :: ss => some (ss.foldl (fun p n => (min p.1 n, max p.2 n)) (s, s))
    characters := List.insertionSort (· ≤ ·) ((gs.filterMap Gag.cutaway_owner).dedup)
    absurdist_gags := gs.filterMap (fun g =>
      match g.cutaway_owner, g.description with
      | some o, some d => if isMainOwner o then none else some (g.title, o, d)
      | _, _ => none) }

/-! ### Helper lemmas about the regex-search model -/

theorem lowerL_cons (c : Char) (cs : List Char) :
    lowerL (c :: cs) = Char.toLower c :: lowerL cs := rfl

/-- If the (lower-case) label does not occur as a substring of the lowered
content, the scan for a string-valued field finds nothing. -/
theorem reSearchStr_eq_none (label : List Char) :
    ∀ cs : List Char, isSubstring label (lowerL cs) = false → reSearchStr label cs = none := by
  intro cs
  induction cs with
  | nil => intro _; rfl
  | cons c cs ih =>
    intro h
    rw [lowerL_cons] at h
    simp only [isSubstring, Bool.or_eq_false_iff] at h
    rw [reSearchStr, lowerL_cons, h.1]
    exact ih h.2

/-- If the (lower-case) label does not occur as a substring of the lowered
content, the scan for a numeric field finds nothing. -/
theorem reSearchNum_eq_none (label : List Char) :
    ∀ cs : List Char, isSubstring label (lowerL cs) = false → reSearchNum label cs = none := by
  intro cs
  induction cs with
  | nil => intro _; rfl
  | cons c cs ih =>
    intro h
    rw [lowerL_cons] at h
    simp only [isSubstring, Bool.or_eq_false_iff] at h
    rw [reSearchNum, lowerL_cons, h.1]
    exact ih h.2

/-- Every value produced by the string-field scan comes from an occurrence
of the label somewhere in the content (case-insensitively), with the value
match applied to the text after the label. -/
theorem reSearchStr_some (label : List Char) :
    ∀ cs v, reSearchStr label cs = some v →
      ∃ pre suf, cs = pre ++ suf ∧ label.isPrefixOf (lowerL suf) = true ∧
        matchDotValue (suf.drop label.length) = some v := by
  intro cs
  induction cs with
  | nil => intro v h; simp [reSearchStr] at h
  | cons c cs ih =>
    intro v h
    rw [reSearchStr] at h
    by_cases hp : label.isPrefixOf (lowerL (c :: cs)) = true
    · rw [hp] at h
      simp only [if_true] at h
      cases hm : matchDotValue ((c :: cs).drop label.length) with
      | some v' =>
        rw [hm] at h
        cases h
        exact ⟨[], c :: cs, rfl, hp, hm⟩
      | none =>
        rw [hm] at h
        obtain ⟨pre, suf, hdec, hpre, hval⟩ := ih v h
        exact ⟨c :: pre, suf, by rw [hdec]; rfl, hpre, hval⟩
    · rw [Bool.not_eq_true] at hp
      rw [hp] at h
      simp only [Bool.false_eq_true, if_false] at h
      obtain ⟨pre, suf, hdec, hpre, hval⟩ := ih v h
      exact ⟨c :: pre, suf, by rw [hdec]; rfl, hpre, hval⟩

/-- Every value produced by the numeric-field scan comes from an
occurrence of the label somewhere in the content. -/
theorem reSearchNum_some (label : List Char) :
    ∀ cs n, reSearchNum label cs = some n →
      ∃ pre suf, cs = pre ++ suf ∧ label.isPrefixOf (lowerL suf) = true ∧
        matchNumValue (suf.drop label.length) = some n := by
  intro cs
  induction cs with
  | nil => intro n h; simp [reSearchNum] at h
  | cons c cs ih =>
    intro n h
    rw [reSearchNum] at h
    by_cases hp : label.isPrefixOf (lowerL (c :: cs)) = true
    · rw [hp] at h
      simp only [if_true] at h
      cases hm : matchNumValue ((c :: cs).drop label.length) with
      | some n' =>
        rw [hm] at h
        cases h
        exact ⟨[], c :: cs, rfl, hp, hm⟩
      | none =>
        rw [hm] at h
        obtain ⟨pre, suf, hdec, hpre, hval⟩ := ih n h
        exact ⟨c :: pre, suf, by rw [hdec]; rfl, hpre, hval⟩
    · rw [Bool.not_eq_true] at hp
      rw [hp] at h
      simp only [Bool.false_eq_true, if_false] at h
      obtain ⟨pre, suf, hdec, hpre, hval⟩ := ih n h
      exact ⟨c :: pre, suf, by rw [hdec]; rfl, hpre, hval⟩

/-- A successful numeric value match is exactly a nonempty digit run after
optional whitespace, converted to its decimal value. -/
theorem matchNumValue_some (s : List Char) (n : Nat) (h : matchNumValue s = some n) :
    (s.dropWhile pyIsSpace).takeWhile Char.isDigit ≠ [] ∧
      n = digitsToNat ((s.dropWhile pyIsSpace).takeWhile Char.isDigit) := by
  unfold matchNumValue at h
  by_cases he : ((s.dropWhile pyIsSpace).takeWhile Char.isDigit).isEmpty = true
  · rw [if_pos he] at h; cases h
  · rw [if_neg he] at h
    cases h
    exact ⟨by simpa [List.isEmpty_iff] using he, rfl⟩

/-- After stripping, a successful string value match equals the text after
the label, with leading whitespace skipped, cut at the next newline. -/
theorem matchDotValue_strip (s : List Char) (v : List Char) (h : matchDotValue s = some v) :
    pyStripL v = pyStripL ((s.dropWhile pyIsSpace).takeWhile (fun c => c ≠ '\n')) := by
  unfold matchDotValue at h
  by_cases he : (s.dropWhile pyIsSpace).isEmpty = true
  · rw [if_pos he] at h
    have hall : ∀ c ∈ s, pyIsSpace c = true := by
      rw [← List.dropWhile_eq_nil_iff (p := pyIsSpace)]
      simpa [List.isEmpty_iff] using he
    cases hg : (s.filter (fun c => c ≠ '\n')).getLast? with
    | none => rw [hg] at h; cases h
    | some c =>
      rw [hg] at h
      cases h
      have hc : c ∈ s.filter (fun c => c ≠ '\n') := by
        obtain ⟨ys, hys⟩ := List.getLast?_eq_some_iff.mp hg
        rw [hys]; simp
      have hcs : c ∈ s := (List.mem_filter.mp hc).1
      have hsp : pyIsSpace c = true := hall c hcs
      have h1 : pyStripL [c] = [] := by
        simp [pyStripL, List.dropWhile, hsp]
      rw [h1]
      rw [List.isEmpty_iff] at he
      rw [he]
      rfl
  · rw [if_neg he] at h
    cases h
    rfl

/-! ### C9: no recognized labels gives the fallback record -/

/-- C9: for every raw text containing no recognized label at all, the
parser produces a record whose title equals the supplied fallback
identifier and whose season, episode, episode_order, owner and
description are all unset. -/
theorem parse_no_labels_defaults (content stem fname : String)
    (h : ∀ lab ∈ (["title:", "season:", "episode:", "episode order:",
        "cutaway owner:", "description:"] : List String),
      isSubstring lab.data (strLower content).data = false) :
    parse_gag_file content stem fname = { title := stem, filename := fname } := by
  have ht := h "title:" (by simp)
  have hs := h "season:" (by simp)
  have he := h "episode:" (by simp)
  have heo := h "episode order:" (by simp)
  have ho := h "cutaway owner:" (by simp)
  have hd := h "description:" (by simp)
  unfold parse_gag_file
  rw [reSearchStr_eq_none _ _ ht, reSearchNum_eq_none _ _ hs, reSearchStr_eq_none _ _ he,
      reSearchNum_eq_none _ _ heo, reSearchStr_eq_none _ _ ho, reSearchStr_eq_none _ _ hd]
  rfl

/-- Witness for C9 at the concrete label-free text `"hello world"`. -/
theorem parse_no_labels_defaults_witness :
    (∀ lab ∈ (["title:", "season:", "episode:", "episode order:",
        "cutaway owner:", "description:"] : List String),
      isSubstring lab.data (strLower "hello world").data = false) ∧
    parse_gag_file "hello world" "fb" "fb.txt" = { title := "fb", filename := "fb.txt" } :=
  ⟨by decide, parse_no_labels_defaults "hello world" "fb" "fb.txt" (by decide)⟩

/-! ### C3: numeric-field parsing -/

/-- C3 counterexample: on `"Season: 12abc"` the captured line value
`"12abc"` is not purely digits, so the claim requires `season` to be left
unset; the code nevertheless sets `season = 12` (the regex `\d+` grabs the
leading digit run and ignores trailing text). -/
theorem parse_numeric_trailing_junk :
    (parse_gag_file "Season: 12abc" "f" "f.txt").season = some 12 ∧
    ("12abc").data.all Char.isDigit = false :=
  ⟨by decide, by decide⟩

/-- C3 amended: a numeric field is set exactly from the maximal digit run
that follows some occurrence of the label after optional whitespace, with
any trailing non-digit text ignored; if the label does not occur, the
field is left unset.  The parser is a total function, so no input raises
a fatal error. -/
theorem parse_numeric_digit_run (content stem fname : String) :
    (∀ n, (parse_gag_file content stem fname).season = some n →
      ∃ pre suf, content.data = pre ++ suf ∧
        ("season:".data).isPrefixOf (lowerL suf) = true ∧
        ((suf.drop 7).dropWhile pyIsSpace).takeWhile Char.isDigit ≠ [] ∧
        n = digitsToNat (((suf.drop 7).dropWhile pyIsSpace).takeWhile Char.isDigit)) ∧
    (∀ n, (parse_gag_file content stem fname).episode_order = some n →
      ∃ pre suf, content.data = pre ++ suf ∧
        ("episode order:".data).isPrefixOf (lowerL suf) = true ∧
        ((suf.drop 14).dropWhile pyIsSpace).takeWhile Char.isDigit ≠ [] ∧
        n = digitsToNat (((suf.drop 14).dropWhile pyIsSpace).takeWhile Char.isDigit)) ∧
    (isSubstring "season:".data (strLower content).data = false →
      (parse_gag_file content stem fname).season = none) ∧
    (isSubstring "episode order:".data (strLower content).data = false →
      (parse_gag_file content stem fname).episode_order = none) := by
  refine ⟨?_, ?_, ?_, ?_⟩
  · intro n hn
    have hs : reSearchNum "season:".data content.data = some n := hn
    obtain ⟨pre, suf, hdec, hpre, hval⟩ := reSearchNum_some _ _ _ hs
    have hlen : "season:".data.length = 7 := rfl
    rw [hlen] at hval
    obtain ⟨hne, hdig⟩ := matchNumValue_some _ _ hval
    exact ⟨pre, suf, hdec, hpre, hne, hdig⟩
  · intro n hn
    have hs : reSearchNum "episode order:".data content.data = some n := hn
    obtain ⟨pre, suf, hdec, hpre, hval⟩ := reSearchNum_some _ _ _ hs
    have hlen : "episode order:".data.length = 14 := rfl
    rw [hlen] at hval
    obtain ⟨hne, hdig⟩ := matchNumValue_some _ _ hval
    exact ⟨pre, suf, hdec, hpre, hne, hdig⟩
  · intro h
    exact reSearchNum_eq_none _ _ h
  · intro h
    exact reSearchNum_eq_none _ _ h

/-- Witness for the amended C3 at `"Season: 7"`. -/
theorem parse_numeric_digit_run_witness :
    ∃ pre suf, ("Season: 7").data = pre ++ suf ∧
      ("season:".data).isPrefixOf (lowerL suf) = true ∧
      ((suf.drop 7).dropWhile pyIsSpace).takeWhile Char.isDigit ≠ [] ∧
      7 = digitsToNat (((suf.drop 7).dropWhile pyIsSpace).takeWhile Char.isDigit) :=
  (parse_numeric_digit_run "Season: 7" "f" "f.txt").1 7 (by decide)

/-! ### C4: string-field parsing -/

/-- C4 counterexample: the regex label match is not anchored to the start
of a line, so in `"Subtitle: X"` the embedded occurrence of `Title:` sets
the title to `"X"`; the claim requires the title to stay at the fallback
identifier `"fb"`. -/
theorem parse_title_embedded_label :
    (parse_gag_file "Subtitle: X" "fb" "fb.txt").title = "X" ∧
    (parse_gag_file "Subtitle: X" "fb" "fb.txt").title ≠ "fb" :=
  ⟨by decide, by decide⟩

/-- C4 amended: every string field value comes from an occurrence of
`<Label>:` anywhere in the text, matched case-insensitively — including
occurrences embedded inside a longer word; the captured value is the text
after the colon, with whitespace (possibly spanning line breaks) skipped,
up to the next newline or the end of text, trimmed of leading and trailing
whitespace. -/
theorem parse_string_fields_value_rule (content stem fname : String) :
    ((parse_gag_file content stem fname).title ≠ stem →
      ∃ pre suf, content.data = pre ++ suf ∧
        ("title:".data).isPrefixOf (lowerL suf) = true ∧
        (parse_gag_file content stem fname).title =
          ⟨pyStripL (((suf.drop 6).dropWhile pyIsSpace).takeWhile (fun c => c ≠ '\n'))⟩) ∧
    (∀ v, (parse_gag_file content stem fname).episode = some v →
      ∃ pre suf, content.data = pre ++ suf ∧
        ("episode:".data).isPrefixOf (lowerL suf) = true ∧
        v = ⟨pyStripL (((suf.drop 8).dropWhile pyIsSpace).takeWhile (fun c => c ≠ '\n'))⟩) ∧
    (∀ v, (parse_gag_file content stem fname).cutaway_owner = some v →
      ∃ pre suf, content.data = pre ++ suf ∧
        ("cutaway owner:".data).isPrefixOf (lowerL suf) = true ∧
        v = ⟨pyStripL (((suf.drop 14).dropWhile pyIsSpace).takeWhile (fun c => c ≠ '\n'))⟩) ∧
    (∀ v, (parse_gag_file content stem fname).description = some v →
      ∃ pre suf, content.data = pre ++ suf ∧
        ("description:".data).isPrefixOf (lowerL suf) = true ∧
        v = ⟨pyStripL (((suf.drop 12).dropWhile pyIsSpace).takeWhile (fun c => c ≠ '\n'))⟩) := by
  refine ⟨?_, ?_, ?_, ?_⟩
  · intro hne
    cases hs : reSearchStr "title:".data content.data with
    | none =>
      exfalso
      apply hne
      show (match reSearchStr "title:".data content.data with
        | some v => (⟨pyStripL v⟩ : String)
        | none => stem) = stem
      rw [hs]
    | some v =>
      obtain ⟨pre, suf, hdec, hpre, hval⟩ := reSearchStr_some _ _ _ hs
      have hlen : "title:".data.length = 6 := rfl
      rw [hlen] at hval
      refine ⟨pre, suf, hdec, hpre, ?_⟩
      have hstrip := matchDotValue_strip _ _ hval
      have htv : (parse_gag_file content stem fname).title = (⟨pyStripL v⟩ : String) := by
        show (match reSearchStr "title:".data content.data with
          | some v => (⟨pyStripL v⟩ : String)
          | none => stem) = _
        rw [hs]
      rw [htv, hstrip]
  · intro v hv
    have hs : (reSearchStr "episode:".data content.data).map
        (fun v => (⟨pyStripL v⟩ : String)) = some v := hv
    obtain ⟨v', hv', hmap⟩ := Option.map_eq_some'.mp hs
    obtain ⟨pre, suf, hdec, hpre, hval⟩ := reSearchStr_some _ _ _ hv'
    have hlen : "episode:".data.length = 8 := rfl
    rw [hlen] at hval
    refine ⟨pre, suf, hdec, hpre, ?_⟩
    rw [← hmap, matchDotValue_strip _ _ hval]
  · intro v hv
    have hs : (reSearchStr "cutaway owner:".data content.data).map
        (fun v => (⟨pyStripL v⟩ : String)) = some v := hv
    obtain ⟨v', hv', hmap⟩ := Option.map_eq_some'.mp hs
    obtain ⟨pre, suf, hdec, hpre, hval⟩ := reSearchStr_some _ _ _ hv'
    have hlen : "cutaway owner:".data.length = 14 := rfl
    rw [hlen] at hval
    refine ⟨pre, suf, hdec, hpre, ?_⟩
    rw [← hmap, matchDotValue_strip _ _ hval]
  · intro v hv
    have hs : (reSearchStr "description:".data content.data).map
        (fun v => (⟨pyStripL v⟩ : String)) = some v := hv
    obtain ⟨v', hv', hmap⟩ := Option.map_eq_some'.mp hs
    obtain ⟨pre, suf, hdec, hpre, hval⟩ := reSearchStr_some _ _ _ hv'
    have hlen : "description:".data.length = 12 := rfl
    rw [hlen] at hval
    refine ⟨pre, suf, hdec, hpre, ?_⟩
    rw [← hmap, matchDotValue_strip _ _ hval]

/-- Witness for the amended C4 at `"Cutaway Owner: Peter "` (note the
trailing space, which trimming removes). -/
theorem parse_string_fields_value_rule_witness :
    ∃ pre suf, ("Cutaway Owner: Peter ").data = pre ++ suf ∧
      ("cutaway owner:".data).isPrefixOf (lowerL suf) = true ∧
      "Peter" = (⟨pyStripL (((suf.drop 14).dropWhile pyIsSpace).takeWhile (fun c => c ≠ '\n'))⟩ : String) :=
  (parse_string_fields_value_rule "Cutaway Owner: Peter " "f" "f.txt").2.2.1 "Peter" (by decide)

/-! ### C2: tokenization -/

/-- The character right after a produced token is a non-word character
(or the token ends the text). -/
def rightBoundary (post : List Char) : Prop :=
  post = [] ∨ ∃ d rest, post = d :: rest ∧ isWordChar d = false

/-- The character right before a produced token is a non-word character
(or the token starts the text). -/
def leftBoundary (pre : List Char) : Prop :=
  pre = [] ∨ ∃ p d, pre = p ++ [d] ∧ isWordChar d = false

/-- Soundness of the `\b[a-z]+\b` scanner: every emitted word is a
nonempty all-lowercase segment of the input whose right neighbour is a
non-word character, and which either absorbs the accumulated `run` (when
the pending position was valid) or starts right after a non-word
character of `cs`. -/
theorem azAux_sound :
    ∀ (cs : List Char) (valid : Bool) (run : List Char),
      (∀ c ∈ run, isLowerAlpha c = true) →
      ∀ w ∈ azAux cs valid run,
        w.data ≠ [] ∧ (∀ c ∈ w.data, isLowerAlpha c = true) ∧
        ((valid = true ∧ ∃ mid post, cs = mid ++ post ∧ w.data = run.reverse ++ mid ∧
            (∀ c ∈ mid, isLowerAlpha c = true) ∧ rightBoundary post) ∨
         (∃ pre d mid post, cs = pre ++ d :: (mid ++ post) ∧ isWordChar d = false ∧
            w.data = mid ∧ (∀ c ∈ mid, isLowerAlpha c = true) ∧ rightBoundary post)) := by
  intro cs
  induction cs with
  | nil =>
    intro valid run hrun w hw
    rw [azAux] at hw
    by_cases hc : (valid && !run.isEmpty) = true
    · rw [if_pos hc] at hw
      rw [Bool.and_eq_true, Bool.not_eq_true', List.isEmpty_eq_false] at hc
      rcases List.mem_singleton.mp hw with rfl
      refine ⟨by simpa using hc.2, ?_, Or.inl ⟨hc.1, [], [], rfl, by simp, by simp, Or.inl rfl⟩⟩
      intro c hcmem
      exact hrun c (List.mem_reverse.mp hcmem)
    · rw [if_neg hc] at hw
      cases hw
  | cons c cs ih =>
    intro valid run hrun w hw
    rw [azAux] at hw
    by_cases hla : isLowerAlpha c = true
    · rw [if_pos hla] at hw
      have hrun' : ∀ x ∈ c :: run, isLowerAlpha x = true := by
        intro x hx
        rcases List.mem_cons.mp hx with rfl | hx
        · exact hla
        · exact hrun x hx
      obtain ⟨hne, hlow, hcase⟩ := ih valid (c :: run) hrun' w hw
      refine ⟨hne, hlow, ?_⟩
      rcases hcase with ⟨hv, mid, post, hdec, hwd, hmid, hrb⟩ |
        ⟨pre, d, mid, post, hdec, hd, hwd, hmid, hrb⟩
      · refine Or.inl ⟨hv, c :: mid, post, by rw [hdec]; rfl, ?_, ?_, hrb⟩
        · rw [hwd, List.reverse_cons, List.append_assoc]
          rfl
        · intro x hx
          rcases List.mem_cons.mp hx with rfl | hx
          · exact hla
          · exact hmid x hx
      · exact Or.inr ⟨c :: pre, d, mid, post, by rw [hdec]; rfl, hd, hwd, hmid, hrb⟩
    · rw [if_neg hla] at hw
      rcases List.mem_append.mp hw with hw | hw
      · by_cases hc : (valid && !run.isEmpty && !isWordChar c) = true
        · rw [if_pos hc] at hw
          rcases List.mem_singleton.mp hw with rfl
          rw [Bool.and_eq_true, Bool.and_eq_true, Bool.not_eq_true',
            List.isEmpty_eq_false, Bool.not_eq_true'] at hc
          refine ⟨by simpa using hc.1.2, ?_,
            Or.inl ⟨hc.1.1, [], c :: cs, rfl, by simp, by simp, Or.inr ⟨c, cs, rfl, hc.2⟩⟩⟩
          intro x hx
          exact hrun x (List.mem_reverse.mp hx)
        · rw [if_neg hc] at hw
          cases hw
      · obtain ⟨hne, hlow, hcase⟩ := ih (!isWordChar c) [] (by simp) w hw
        refine ⟨hne, hlow, ?_⟩
        rcases hcase with ⟨hv, mid, post, hdec, hwd, hmid, hrb⟩ |
          ⟨pre, d, mid, post, hdec, hd, hwd, hmid, hrb⟩
        · refine Or.inr ⟨[], c, mid, post, by rw [hdec]; rfl, ?_, by simpa using hwd, hmid, hrb⟩
          rw [Bool.not_eq_true'] at hv
          exact hv
        · exact Or.inr ⟨c :: pre, d, mid, post, by rw [hdec]; rfl, hd, hwd, hmid, hrb⟩

/-- C2 counterexample: in `"money5"` the digit `5` is a word character,
so the `\b` boundary after `money` fails and the fragment yields no token
at all — while the claim requires the token `"money"` (which passes the
length and stop-word filters). -/
theorem extract_keywords_money5 :
    extract_keywords "money5" = [] ∧
    3 ≤ ("money" : String).length ∧ "money" ∉ stop_words :=
  ⟨by decide, by decide, by decide⟩

/-- Lowercase letters are word characters, so `\b` fails next to them. -/
theorem wordChar_of_lowerAlpha (c : Char) (h : isLowerAlpha c = true) :
    isWordChar c = true := by
  unfold isLowerAlpha at h
  rw [Bool.and_eq_true, decide_eq_true_iff, decide_eq_true_iff] at h
  unfold isWordChar Char.isAlphanum Char.isAlpha Char.isLower
  simp only [Bool.or_eq_true, Bool.and_eq_true, decide_eq_true_iff]
  left; left; right
  exact ⟨Char.le_def.mp h.1, Char.le_def.mp h.2⟩

/-- Lowercase letters are not digits. -/
theorem isDigit_false_of_lowerAlpha (c : Char) (h : isLowerAlpha c = true) :
    Char.isDigit c = false := by
  unfold isLowerAlpha at h
  rw [Bool.and_eq_true, decide_eq_true_iff, decide_eq_true_iff] at h
  by_contra hne
  rw [Bool.not_eq_false] at hne
  unfold Char.isDigit at hne
  rw [Bool.and_eq_true, decide_eq_true_iff, decide_eq_true_iff] at hne
  have h9 : c ≤ '9' := Char.le_def.mpr hne.2
  exact absurd (le_trans h.1 h9) (by decide)

/-- A non-word character (or the end of text) is not a lowercase letter. -/
theorem lowerAlpha_false_of_not_wordChar (c : Char) (h : isWordChar c = false) :
    isLowerAlpha c = false := by
  by_contra hc
  rw [Bool.not_eq_false] at hc
  rw [wordChar_of_lowerAlpha c hc] at h
  cases h

/-- The scanner emits the pending valid run at a right word boundary. -/
theorem azAux_emit (run post : List Char) (hrun : run ≠ [])
    (hright : post = [] ∨ ∃ d rest, post = d :: rest ∧ isWordChar d = false) :
    (⟨run.reverse⟩ : String) ∈ azAux post true run := by
  have hemp : run.isEmpty = false := by
    rw [List.isEmpty_eq_false]
    exact hrun
  rcases hright with rfl | ⟨d, rest, rfl, hd⟩
  · rw [azAux, if_pos (by rw [hemp]; rfl)]
    exact List.mem_singleton.mpr rfl
  · have hdl : isLowerAlpha d = false := lowerAlpha_false_of_not_wordChar d hd
    rw [azAux, if_neg (by rw [hdl]; exact Bool.false_ne_true)]
    apply List.mem_append.mpr
    left
    rw [if_pos (by rw [hemp, hd]; rfl)]
    exact List.mem_singleton.mpr rfl

/-- The scanner consumes a lowercase run while extending its pending run,
and emits the whole accumulated word at the run's right boundary. -/
theorem azAux_complete_run :
    ∀ (w' run post : List Char), (∀ c ∈ w', isLowerAlpha c = true) →
      run.reverse ++ w' ≠ [] →
      (post = [] ∨ ∃ d rest, post = d :: rest ∧ isWordChar d = false) →
      (⟨run.reverse ++ w'⟩ : String) ∈ azAux (w' ++ post) true run := by
  intro w'
  induction w' with
  | nil =>
    intro run post _ hne hright
    have hrun : run ≠ [] := by
      intro h
      rw [h] at hne
      exact hne rfl
    simpa using azAux_emit run post hrun hright
  | cons c w'' ih =>
    intro run post hlow hne hright
    have hc : isLowerAlpha c = true := hlow c (List.mem_cons_self c w'')
    show _ ∈ azAux (c :: (w'' ++ post)) true run
    rw [azAux, if_pos hc]
    have hih := ih (c :: run) post (fun x hx => hlow x (List.mem_cons_of_mem _ hx))
      (by simp) hright
    simpa [List.append_assoc] using hih

/-- The scanner can be run past any prefix that ends in a non-word
character: afterwards its state is a fresh valid position, and all later
emissions are preserved. -/
theorem azAux_skip :
    ∀ (p : List Char) (d : Char) (suffix : List Char) (v : Bool) (run : List Char),
      isWordChar d = false →
      ∃ L, azAux ((p ++ [d]) ++ suffix) v run = L ++ azAux suffix true [] := by
  intro p
  induction p with
  | nil =>
    intro d suffix v run hd
    have hdl : isLowerAlpha d = false := lowerAlpha_false_of_not_wordChar d hd
    show ∃ L, azAux (d :: suffix) v run = _
    rw [azAux, if_neg (by rw [hdl]; exact Bool.false_ne_true), hd]
    exact ⟨_, rfl⟩
  | cons c p' ih =>
    intro d suffix v run hd
    by_cases hc : isLowerAlpha c = true
    · show ∃ L, azAux (c :: ((p' ++ [d]) ++ suffix)) v run = _
      rw [azAux, if_pos hc]
      exact ih d suffix v (c :: run) hd
    · rw [Bool.not_eq_true] at hc
      show ∃ L, azAux (c :: ((p' ++ [d]) ++ suffix)) v run = _
      rw [azAux, if_neg (by rw [hc]; exact Bool.false_ne_true)]
      obtain ⟨L', hL'⟩ := ih d suffix (!isWordChar c) [] hd
      rw [hL']
      exact ⟨_, (List.append_assoc _ _ _).symm⟩

/-- Completeness of the `\b[a-z]+\b` scanner: every nonempty lowercase
run with a non-word character (or a text boundary) on each side is
emitted. -/
theorem azAux_complete (pre w post : List Char)
    (hw : w ≠ []) (hlow : ∀ c ∈ w, isLowerAlpha c = true)
    (hleft : pre = [] ∨ ∃ p d, pre = p ++ [d] ∧ isWordChar d = false)
    (hright : post = [] ∨ ∃ d rest, post = d :: rest ∧ isWordChar d = false) :
    (⟨w⟩ : String) ∈ azAux (pre ++ w ++ post) true [] := by
  rcases hleft with rfl | ⟨p, d, rfl, hd⟩
  · simpa using azAux_complete_run w [] post hlow (by simpa using hw) hright
  · obtain ⟨L, hL⟩ := azAux_skip p d (w ++ post) true [] hd
    rw [List.append_assoc (p ++ [d]) w post, hL]
    apply List.mem_append.mpr
    right
    simpa using azAux_complete_run w [] post hlow (by simpa using hw) hright

/-- C2 amended: a string is a produced token if and only if it is a
nonempty run of lowercase letters, at least 3 characters long and outside
the stop-word list, occurring in the lowered text with a non-word
character (punctuation or whitespace) or a text boundary on each side —
so digits and underscores, being word characters, suppress adjacent
letter runs (`"money5"` yields no token) — and digits never appear inside
any produced token. -/
theorem extract_keywords_tokens (text : String) :
    ∀ w : String,
      (w ∈ extract_keywords text ↔
        3 ≤ w.length ∧ w ∉ stop_words ∧ w.data ≠ [] ∧
        (∀ c ∈ w.data, isLowerAlpha c = true) ∧
        ∃ pre post, (strLower text).data = pre ++ w.data ++ post ∧
          leftBoundary pre ∧ rightBoundary post) ∧
      (w ∈ extract_keywords text → ∀ c ∈ w.data, Char.isDigit c = false) := by
  intro w
  have hsound : w ∈ extract_keywords text →
      3 ≤ w.length ∧ w ∉ stop_words ∧ w.data ≠ [] ∧
      (∀ c ∈ w.data, isLowerAlpha c = true) ∧
      ∃ pre post, (strLower text).data = pre ++ w.data ++ post ∧
        leftBoundary pre ∧ rightBoundary post := by
    intro hw
    rw [extract_keywords, List.mem_filter] at hw
    obtain ⟨hmem, hfil⟩ := hw
    rw [decide_eq_true_iff] at hfil
    obtain ⟨hne, hlow, hcase⟩ := azAux_sound (strLower text).data true [] (by simp) w hmem
    refine ⟨hfil.1, hfil.2, hne, hlow, ?_⟩
    rcases hcase with ⟨_, mid, post, hdec, hwd, _, hrb⟩ |
      ⟨pre, d, mid, post, hdec, hd, hwd, _, hrb⟩
    · refine ⟨[], post, ?_, Or.inl rfl, hrb⟩
      rw [hdec, hwd]
      rfl
    · refine ⟨pre ++ [d], post, ?_, Or.inr ⟨pre, d, rfl, hd⟩, hrb⟩
      rw [hdec, hwd]
      simp
  have hcomplete :
      (3 ≤ w.length ∧ w ∉ stop_words ∧ w.data ≠ [] ∧
        (∀ c ∈ w.data, isLowerAlpha c = true) ∧
        ∃ pre post, (strLower text).data = pre ++ w.data ++ post ∧
          leftBoundary pre ∧ rightBoundary post) →
      w ∈ extract_keywords text := by
    rintro ⟨hlen, hstop, hne, hlow, pre, post, hdec, hl, hr⟩
    rw [extract_keywords, List.mem_filter]
    refine ⟨?_, by rw [decide_eq_true_iff]; exact ⟨hlen, hstop⟩⟩
    show w ∈ azAux (strLower text).data true []
    rw [hdec]
    exact azAux_complete pre w.data post hne hlow hl hr
  exact ⟨⟨hsound, hcomplete⟩, fun hw c hc =>
    isDigit_false_of_lowerAlpha c ((hsound hw).2.2.2.1 c hc)⟩

/-- Witness for the amended C2 at `"Money! and bank5"`: both directions
at the concrete token `"money"` — produced because it sits between the
text start and the non-word `'!'` — and its concrete guarantees. -/
theorem extract_keywords_tokens_witness :
    "money" ∈ extract_keywords "Money! and bank5" ∧
    (∀ c ∈ ("money" : String).data, Char.isDigit c = false) :=
  ⟨((extract_keywords_tokens "Money! and bank5" "money").1).mpr
    ⟨by decide, by decide, by decide, by decide,
      [], ("! and bank5" : String).data, by decide, Or.inl rfl,
      Or.inr ⟨'!', (" and bank5" : String).data, by decide, by decide⟩⟩,
    (extract_keywords_tokens "Money! and bank5" "money").2 (by decide)⟩

/-! ### C7: index determinism -/

/-- Indexing two records commutes: each only ever adds its own title to
the sets of its own tokens. -/
theorem indexInsert_comm (idx : String → Finset String) (g₁ g₂ : Gag) :
    indexInsert (indexInsert idx g₁) g₂ = indexInsert (indexInsert idx g₂) g₁ := by
  funext t
  unfold indexInsert
  by_cases h1 : t ∈ gagTokens g₁ <;> by_cases h2 : t ∈ gagTokens g₂ <;>
    simp [h1, h2, Finset.Insert.comm]

/-- C7: the inverted index is order-independent — indexing the same
records in any two processing orders yields identical token-to-title-set
mappings. -/
theorem buildIndex_perm (l₁ l₂ : List Gag) (h : l₁.Perm l₂) :
    buildIndex l₁ = buildIndex l₂ := by
  unfold buildIndex
  haveI : RightCommutative indexInsert := ⟨fun idx g₁ g₂ => indexInsert_comm idx g₁ g₂⟩
  exact h.foldl_eq _

/-- Witness for C7: two concrete two-record stores that are permutations
of one another. -/
theorem buildIndex_perm_witness :
    ([({ title := "A", cutaway_owner := some "Stewie Griffin" } : Gag),
      { title := "B", description := some "Death collects souls" }].Perm
     [({ title := "B", description := some "Death collects souls" } : Gag),
      { title := "A", cutaway_owner := some "Stewie Griffin" }]) ∧
    buildIndex
      [({ title := "A", cutaway_owner := some "Stewie Griffin" } : Gag),
       { title := "B", description := some "Death collects souls" }] =
    buildIndex
      [({ title := "B", description := some "Death collects souls" } : Gag),
       { title := "A", cutaway_owner := some "Stewie Griffin" }] :=
  ⟨by decide, buildIndex_perm _ _ (by decide)⟩

/-! ### C8: stop-word queries and the index -/

/-- Membership in a partially built index: a title is under a token iff
it was there initially or some processed record carries the token. -/
theorem mem_foldl_indexInsert (gs : List Gag) :
    ∀ (idx₀ : String → Finset String) (tok t : String),
      t ∈ gs.foldl indexInsert idx₀ tok ↔
        t ∈ idx₀ tok ∨ ∃ g ∈ gs, g.title = t ∧ tok ∈ gagTokens g := by
  induction gs with
  | nil => intro idx₀ tok t; simp
  | cons g gs ih =>
    intro idx₀ tok t
    rw [List.foldl_cons, ih]
    unfold indexInsert
    by_cases h : tok ∈ gagTokens g
    · simp only [if_pos h, Finset.mem_insert, List.mem_cons]
      constructor
      · rintro ((rfl | ht) | hex)
        · exact Or.inr ⟨g, Or.inl rfl, rfl, h⟩
        · exact Or.inl ht
        · obtain ⟨g', hg', rest⟩ := hex
          exact Or.inr ⟨g', Or.inr hg', rest⟩
      · rintro (ht | ⟨g', (rfl | hg'), rfl, htok⟩)
        · exact Or.inl (Or.inr ht)
        · exact Or.inl (Or.inl rfl)
        · exact Or.inr ⟨g', hg', rfl, htok⟩
    · simp only [if_neg h, List.mem_cons]
      constructor
      · rintro (ht | ⟨g', hg', rest⟩)
        · exact Or.inl ht
        · exact Or.inr ⟨g', Or.inr hg', rest⟩
      · rintro (ht | ⟨g', (rfl | hg'), rfl, htok⟩)
        · exact Or.inl ht
        · exact absurd htok h
        · exact Or.inr ⟨g', hg', rfl, htok⟩

/-- Membership in the full index built by load. -/
theorem mem_buildIndex (gs : List Gag) (tok t : String) :
    t ∈ buildIndex gs tok ↔ ∃ g ∈ gs, g.title = t ∧ tok ∈ gagTokens g := by
  rw [buildIndex, mem_foldl_indexInsert]
  simp

/-- Keywords extracted from a description are never stop words. -/
theorem mem_extract_keywords_not_stop (d w : String) (h : w ∈ extract_keywords d) :
    w ∉ stop_words := by
  rw [extract_keywords, List.mem_filter] at h
  exact (decide_eq_true_iff.mp h.2).2

/-- C8 counterexample: an owner string equal to a stop word (a store with
`Cutaway Owner: The`) puts the stop word into the index as an owner token,
so the stop-word query `"the"` matches the record via the index token path
in description scope even though the record has no description at all —
the claim says a stop-word query can match only via the literal substring
test. -/
theorem stopword_query_owner_token :
    "the" ∈ stop_words ∧
    search [({ title := "T", cutaway_owner := some "The" } : Gag)]
        (buildIndex [({ title := "T", cutaway_owner := some "The" } : Gag)])
        "the" Scope.description
      = [({ title := "T", cutaway_owner := some "The" } : Gag)] ∧
    ({ title := "T", cutaway_owner := some "The" } : Gag).description = none :=
  ⟨by decide, by decide, rfl⟩

/-- C8 amended: a stop-word query never reaches the index through a
description keyword; any index hit for a stop-word query is due to a
record whose lower-cased full owner string equals the query.  Otherwise a
stop-word query can match only via the literal substring test. -/
theorem stopword_index_hit_only_owner (gs : List Gag) (q t : String)
    (hq : q ∈ stop_words) (ht : t ∈ buildIndex gs q) :
    ∃ g ∈ gs, g.title = t ∧ ∃ o, g.cutaway_owner = some o ∧ strLower o = q := by
  obtain ⟨g, hg, hgt, htok⟩ := (mem_buildIndex gs q t).mp ht
  subst hgt
  refine ⟨g, hg, rfl, ?_⟩
  unfold gagTokens at htok
  rcases List.mem_append.mp htok with howner | hdesc
  · cases ho : g.cutaway_owner with
    | none => rw [ho] at howner; cases howner
    | some o =>
      rw [ho] at howner
      rcases List.mem_singleton.mp howner with rfl
      exact ⟨o, rfl, rfl⟩
  · exfalso
    cases hd : g.description with
    | none => rw [hd] at hdesc; cases hdesc
    | some d =>
      rw [hd] at hdesc
      exact mem_extract_keywords_not_stop d q hdesc hq

/-- Witness for the amended C8 at the concrete owner-equals-stop-word
store. -/
theorem stopword_index_hit_only_owner_witness :
    ("the" ∈ stop_words ∧
      "T" ∈ buildIndex [({ title := "T", cutaway_owner := some "The" } : Gag)] "the") ∧
    ∃ g ∈ [({ title := "T", cutaway_owner := some "The" } : Gag)], g.title = "T" ∧
      ∃ o, g.cutaway_owner = some o ∧ strLower o = "the" :=
  ⟨⟨by decide, by decide⟩,
    stopword_index_hit_only_owner [({ title := "T", cutaway_owner := some "The" } : Gag)]
      "the" "T" (by decide) (by decide)⟩

/-! ### C5: validator missing-field lists -/

/-- In a store with unique titles, a title appears in a filtered title
list exactly when its own record passes the filter. -/
theorem mem_title_filter_iff (gs : List Gag) (g : Gag) (p : Gag → Bool)
    (hnd : (gs.map Gag.title).Nodup) (hg : g ∈ gs) :
    g.title ∈ (gs.filter p).map Gag.title ↔ p g = true := by
  constructor
  · intro hmem
    obtain ⟨g', hg', ht⟩ := List.mem_map.mp hmem
    obtain ⟨hg'mem, hp⟩ := List.mem_filter.mp hg'
    have heq : g' = g := List.inj_on_of_nodup_map hnd hg'mem hg ht
    rwa [heq] at hp
  · intro hp
    exact List.mem_map_of_mem _ (List.mem_filter.mpr ⟨hg, hp⟩)

/-- C5: in a store with unique titles, a record appears in each of the
four missing-field lists exactly when the corresponding field is unset —
so a record missing exactly `k` of the four fields appears in exactly `k`
of the four lists — and it appears in the missing-multiple list iff it
misses more than one field. -/
theorem validate_missing_partition (gs : List Gag) (g : Gag)
    (hnd : (gs.map Gag.title).Nodup) (hg : g ∈ gs) :
    (g.title ∈ (validate_data gs).missing_season ↔ g.season = none) ∧
    (g.title ∈ (validate_data gs).missing_episode ↔ g.episode = none) ∧
    (g.title ∈ (validate_data gs).missing_owner ↔ g.cutaway_owner = none) ∧
    (g.title ∈ (validate_data gs).missing_description ↔ g.description = none) ∧
    ((∃ fm, (g.title, fm) ∈ (validate_data gs).missing_multiple_fields) ↔
      1 < (missingFields g).length) ∧
    ((if g.title ∈ (validate_data gs).missing_season then 1 else 0) +
       (if g.title ∈ (validate_data gs).missing_episode then 1 else 0) +
       (if g.title ∈ (validate_data gs).missing_owner then 1 else 0) +
       (if g.title ∈ (validate_data gs).missing_description then 1 else 0)
       = (missingFields g).length) := by
  have hseason : g.title ∈ (validate_data gs).missing_season ↔ g.season = none := by
    show g.title ∈ (gs.filter (fun g => g.season.isNone)).map Gag.title ↔ _
    rw [mem_title_filter_iff gs g _ hnd hg, Option.isNone_iff_eq_none]
  have hepisode : g.title ∈ (validate_data gs).missing_episode ↔ g.episode = none := by
    show g.title ∈ (gs.filter (fun g => g.episode.isNone)).map Gag.title ↔ _
    rw [mem_title_filter_iff gs g _ hnd hg, Option.isNone_iff_eq_none]
  have howner : g.title ∈ (validate_data gs).missing_owner ↔ g.cutaway_owner = none := by
    show g.title ∈ (gs.filter (fun g => g.cutaway_owner.isNone)).map Gag.title ↔ _
    rw [mem_title_filter_iff gs g _ hnd hg, Option.isNone_iff_eq_none]
  have hdesc : g.title ∈ (validate_data gs).missing_description ↔ g.description = none := by
    show g.title ∈ (gs.filter (fun g => g.description.isNone)).map Gag.title ↔ _
    rw [mem_title_filter_iff gs g _ hnd hg, Option.isNone_iff_eq_none]
  have hmul : (∃ fm, (g.title, fm) ∈ (validate_data gs).missing_multiple_fields) ↔
      1 < (missingFields g).length := by
    constructor
    · rintro ⟨fm, hfm⟩
      obtain ⟨g', hg', heq⟩ := List.mem_map.mp hfm
      obtain ⟨hg'mem, hp⟩ := List.mem_filter.mp hg'
      have ht : g'.title = g.title := congrArg Prod.fst heq
      have hgg : g' = g := List.inj_on_of_nodup_map hnd hg'mem hg ht
      rw [hgg] at hp
      simpa using hp
    · intro hlt
      exact ⟨missingFields g,
        List.mem_map_of_mem _ (List.mem_filter.mpr ⟨hg, by simpa using hlt⟩)⟩
  refine ⟨hseason, hepisode, howner, hdesc, hmul, ?_⟩
  simp only [hseason, hepisode, howner, hdesc]
  rcases g with ⟨t, s, e, eo, o, d, fn⟩
  cases s <;> cases e <;> cases o <;> cases d <;> simp [missingFields]

/-- Witness for C5: in the two-record store of the spec scenario, `"B"`
(missing season and episode) lands in the missing-season list. -/
theorem validate_missing_partition_witness :
    ({ title := "B", cutaway_owner := some "Death",
        description := some "Death collects souls" } : Gag).title ∈
      (validate_data
        [({ title := "A", season := some 5, episode := some "E1", episode_order := some 1,
            cutaway_owner := some "Stewie Griffin",
            description := some "Stewie robs a bank" } : Gag),
         { title := "B", cutaway_owner := some "Death",
            description := some "Death collects souls" }]).missing_season :=
  (validate_missing_partition
    [({ title := "A", season := some 5, episode := some "E1", episode_order := some 1,
        cutaway_owner := some "Stewie Griffin",
        description := some "Stewie robs a bank" } : Gag),
     { title := "B", cutaway_owner := some "Death",
        description := some "Death collects souls" }]
    ({ title := "B", cutaway_owner := some "Death",
        description := some "Death collects souls" } : Gag)
    (by decide) (by decide)).1.mpr rfl

/-! ### C6: non-main-character records -/

/-- C10: there is a store and query for which description-scope search
returns a record whose description does not contain the query — here a
record with no description at all: the full lower-cased owner string
`"death"` sits in the same inverted index as description tokens, so the
query `"death"` matches via the index token path even in description
scope. -/
theorem description_scope_owner_token_leak :
    search [({ title := "B", cutaway_owner := some "Death" } : Gag)]
        (buildIndex [({ title := "B", cutaway_owner := some "Death" } : Gag)])
        "death" Scope.description
      = [({ title := "B", cutaway_owner := some "Death" } : Gag)] ∧
    ({ title := "B", cutaway_owner := some "Death" } : Gag).description = none :=
  ⟨by decide, rfl⟩

end FG
